import Mathlib

/-!
Verification of the Credential Compliance Status & Notification Engine of the
McCare ATS repository.

The repository ships the frontend (React pages) and documentation; the
backend service (`notification_service.py`, the compliance aggregation
endpoints) is not part of the source tree.  Definitions below therefore come
from two places:

* functions embedded directly from the frontend source
  (`CompliancePage.jsx`: `getDaysUntilExpiry`, `getDaysRemainingBadge`;
  `NotificationSettingsPage.jsx`: `toggleThreshold`), and
* definitions whose doc comment starts with `Modelled from the spec:`,
  for backend components that only exist behind the API surface
  (StatusEvaluator, ComplianceAggregator, AlertLedger, RecipientResolver,
  QuietHoursGate, NotificationDispatcher, ComplianceCheckRunner).

Dates are modelled as integer day numbers, times of day as minutes after
midnight, and user/recipient identities as natural numbers.
-/

namespace McCare

/-- The expiry-driven time status of a document. -/
inductive TimeStatus where
  | OK
  | ExpiringSoon
  | Critical
  | Expired
deriving DecidableEq, Repr

/-- Human verification state of a document: `Pending` until a human verifies. -/
inductive VerificationState where
  | Pending
  | Verified
deriving DecidableEq, Repr

/-- Candidate-level aggregate compliance status. -/
inductive AggregateStatus where
  | FullyCompliant
  | PendingDocuments
  | MissingRequiredDocuments
deriving DecidableEq, Repr

/-- A credential document record (collection `documents` in SCHEMA.md).
Only the fields the engine reads are modelled; dates are day numbers. -/
structure Document where
  id : Nat
  candidate_id : Nat
  document_type : String
  issue_date : Option Int
  expiry_date : Option Int
  verification_state : VerificationState
deriving DecidableEq, Repr

/-- Embedded from `CompliancePage.jsx` (`getDaysUntilExpiry`): returns the
number of days until expiry, or `none` when there is no expiry date.  The
JavaScript function reads the clock (`new Date()`) at call time; that clock
reading is the explicit `today` argument here. -/
def getDaysUntilExpiry (expiryDate : Option Int) (today : Int) : Option Int :=
  match expiryDate with
  | none => none
  | some e => some (e - today)

/-- Day-count bucketing embedded from `CompliancePage.jsx`
(`getDaysRemainingBadge`): `days < 0` red (Expired), `days <= 7` orange
(Critical), `days <= 30` yellow (Expiring Soon), otherwise green (OK).
The soft threshold is a parameter; the frontend hardcodes `30`. -/
def statusOfDays (softThreshold : Int) (days : Int) : TimeStatus :=
  if days < 0 then .Expired
  else if days ≤ 7 then .Critical
  else if days ≤ softThreshold then .ExpiringSoon
  else .OK

/-- Embedded from `CompliancePage.jsx` (`getDaysRemainingBadge`): no badge is
rendered when the day count is `null`. -/
def getDaysRemainingBadge (days : Option Int) : Option TimeStatus :=
  match days with
  | none => none
  | some d => some (statusOfDays 30 d)

/-- Modelled from the spec: the backend `StatusEvaluator.evaluate`
(in `notification_service.py`, which is not under the source tree).
`evaluate(document, today)`: a missing expiry date is a valid OK input;
otherwise bucket `days_remaining = expiry_date - today` exactly as the
frontend day-count badge does. -/
def evaluate (softThreshold : Int) (doc : Document) (today : Int) : TimeStatus :=
  match doc.expiry_date with
  | none => .OK
  | some e => statusOfDays softThreshold (e - today)

/-- Numeric severity of a time status, used to state monotonicity. -/
def severity : TimeStatus → Nat
  | .OK => 0
  | .ExpiringSoon => 1
  | .Critical => 2
  | .Expired => 3

/-- Embedded from `NotificationSettingsPage.jsx` (`toggleThreshold`): a present
threshold is removed (`filter(t => t !== threshold)`); an absent one is
appended and the list re-sorted descending (`sort((a, b) => b - a)`). -/
def toggleThreshold (current : List Int) (threshold : Int) : List Int :=
  if threshold ∈ current then
    current.filter (fun t => t != threshold)
  else
    List.insertionSort (fun a b => b ≤ a) (current ++ [threshold])

/-- A candidate record, reduced to what recipient resolution needs:
the assigned recruiter/owner and the candidate's own contact identity
(present exactly when an email is on file). -/
structure Candidate where
  id : Nat
  owner : Option Nat
  contact : Option Nat
deriving DecidableEq, Repr

/-- Notification settings (collection `notification_settings`), with the
field names used by `NotificationSettingsPage.jsx`.  Times of day are minutes
after midnight; recipient identities are naturals.  `compliance_team` and
`admins` are the role groups resolved from the user directory. -/
structure Settings where
  enabled : Bool
  expiring_credential_enabled : Bool
  expired_alert_enabled : Bool
  expiring_thresholds : List Int
  quiet_hours_enabled : Bool
  quiet_hours_start : Nat
  quiet_hours_end : Nat
  expiring_notify_recruiter : Bool
  expiring_notify_compliance : Bool
  expiring_notify_candidate : Bool
  compliance_emails : List Nat
  compliance_team : List Nat
  admins : List Nat
deriving Repr

/-- Modelled from the spec: the QuietHoursGate window test.  The quiet window
is a time-of-day range that wraps midnight when `start > end`; a run strictly
inside the window is suppressed.  When quiet hours are disabled the window is
empty. -/
def insideQuietWindow (s : Settings) (tod : Nat) : Bool :=
  s.quiet_hours_enabled &&
    (if s.quiet_hours_start ≤ s.quiet_hours_end then
      decide (s.quiet_hours_start ≤ tod) && decide (tod < s.quiet_hours_end)
    else
      decide (s.quiet_hours_start ≤ tod) || decide (tod < s.quiet_hours_end))

/-- Modelled from the spec: `RecipientResolver.resolve` (backend, not under
the source tree).  Resolution order: (1) assigned owner, (2) compliance team
group, (3) the candidate themself, (4) static extra recipients, (5) all
admins if the set would otherwise be empty; finally deduplicated by identity
keeping first occurrences. -/
def resolve (s : Settings) (c : Candidate) : List Nat :=
  let base :=
    (if s.expiring_notify_recruiter then c.owner.toList else []) ++
    (if s.expiring_notify_compliance then s.compliance_team else []) ++
    (if s.expiring_notify_candidate then c.contact.toList else []) ++
    s.compliance_emails
  let chosen := if base = [] then s.admins else base
  chosen.dedup

/-- Alert-ledger key: (document_id, threshold_value).  The expired-alert
class is encoded with the sentinel threshold value `-1` (configured
thresholds are day counts `≥ 0`). -/
abbrev Key := Nat × Int

/-- Delivery state of a ledger entry: `pending` when suppressed by quiet
hours and queued, `sent` once actually dispatched. -/
inductive LedgerStatus where
  | pending
  | sent
deriving DecidableEq, Repr

/-- The alert ledger as an association list from keys to statuses. -/
abbrev Ledger := List (Key × LedgerStatus)

/-- Look up a ledger key (first matching entry). -/
def ledgerFind : Ledger → Key → Option LedgerStatus
  | [], _ => none
  | e :: L, k => if e.1 = k then some e.2 else ledgerFind L k

/-- Modelled from the spec: `AlertLedger.record` — the entry for an existing
key is updated in place, never duplicated; a fresh key is created on first
fire. -/
def ledgerSet : Ledger → Key → LedgerStatus → Ledger
  | [], k, st => [(k, st)]
  | e :: L, k, st => if e.1 = k then (k, st) :: L else e :: ledgerSet L k st

/-- Delivery status recorded in a `NotificationLog` entry: the email channel
delivered, logged only (demo provider), or failed. -/
inductive DeliveryStatus where
  | sent
  | logged
  | failed
deriving DecidableEq, Repr

/-- One in-app notification: a recipient and the alert it is about. -/
structure Notification where
  recipient : Nat
  alert : Key
deriving DecidableEq, Repr

/-- One `NotificationLog` audit entry for a dispatch attempt. -/
structure LogEntry where
  key : Key
  recipients : List Nat
  status : DeliveryStatus
deriving DecidableEq, Repr

/-- Mutable state threaded through one `run_check` pass. -/
structure EngineState where
  ledger : Ledger
  notifications : List Notification
  logs : List LogEntry
  sent : Nat
  deferred : Nat
deriving Repr

/-- Modelled from the spec: the thresholds (plus the expired-alert sentinel)
that a document currently satisfies: a configured threshold `t` fires while
`0 ≤ days_remaining ≤ t`; the expired alert fires while `days_remaining < 0`
when enabled.  A document without an expiry date raises no alerts. -/
def alertKeys (s : Settings) (today : Int) (doc : Document) : List Int :=
  match doc.expiry_date with
  | none => []
  | some e =>
    let days := e - today
    s.expiring_thresholds.filter (fun t => decide (0 ≤ days) && decide (days ≤ t)) ++
      (if s.expired_alert_enabled && decide (days < 0) then [-1] else [])

/-- Look up a candidate by id (OrphanDetector: a document whose candidate
does not resolve never participates in dispatch). -/
def findCand (cands : List Candidate) (cid : Nat) : Option Candidate :=
  cands.find? (fun c => c.id = cid)

/-- An alert job ready for the dispatch decision: the document, its resolved
candidate and the satisfied threshold value. -/
abbrev Job := Document × Candidate × Int

/-- Modelled from the spec: the jobs one document contributes to a pass.
Orphan documents (candidate does not resolve) contribute none. -/
def jobsFor (s : Settings) (cands : List Candidate) (today : Int)
    (doc : Document) : List Job :=
  match findCand cands doc.candidate_id with
  | none => []
  | some c => (alertKeys s today doc).map (fun t => (doc, c, t))

/-- Modelled from the spec: `NotificationDispatcher.dispatch` — one in-app
notification per resolved recipient, exactly one audit log entry whose status
reports the email outcome, the ledger key marked `sent`, and the run counter
incremented once per dispatched alert. -/
def deliver (s : Settings) (outcome : DeliveryStatus) (c : Candidate)
    (k : Key) (st : EngineState) : EngineState :=
  let recips := resolve s c
  { ledger := ledgerSet st.ledger k .sent
    notifications := st.notifications ++ recips.map (fun u => ⟨u, k⟩)
    logs := st.logs ++ [⟨k, recips, outcome⟩]
    sent := st.sent + 1
    deferred := st.deferred }

/-- The ledger key a job is about. -/
def jobKey (job : Job) : Key := (job.1.id, job.2.2)

/-- Modelled from the spec: the per-key step of the CheckRunner: consult the
ledger; an already-sent key is skipped; a pending key is delivered once the
run is outside the quiet window; a fresh key is delivered immediately or
ledgered as pending when inside the quiet window. -/
def processJob (s : Settings) (outcome : DeliveryStatus) (tod : Nat)
    (st : EngineState) (job : Job) : EngineState :=
  match ledgerFind st.ledger (jobKey job) with
  | some .sent => st
  | some .pending =>
    if insideQuietWindow s tod then { st with deferred := st.deferred + 1 }
    else deliver s outcome job.2.1 (jobKey job) st
  | none =>
    if insideQuietWindow s tod then
      { st with ledger := ledgerSet st.ledger (jobKey job) .pending
                deferred := st.deferred + 1 }
    else deliver s outcome job.2.1 (jobKey job) st

/-- Summary and side effects of one `run_check` pass. -/
structure RunResult where
  documents_scanned : Nat
  notifications_sent : Nat
  deferred : Nat
  notifications : List Notification
  logs : List LogEntry
  ledger : Ledger
deriving Repr

/-- Modelled from the spec: `run_check(now?)` — one ComplianceCheckRunner
pass: load settings once, stream the documents, process every satisfied
threshold key against the ledger, and return the summary.  `outcome` is the
email channel result for this pass, `today` the injected calendar day and
`tod` the time of day of the run. -/
def runCheck (s : Settings) (cands : List Candidate) (outcome : DeliveryStatus)
    (today : Int) (tod : Nat) (docs : List Document) (L : Ledger) : RunResult :=
  let jobs :=
    if s.enabled && s.expiring_credential_enabled then
      docs.flatMap (jobsFor s cands today)
    else []
  let final := jobs.foldl (processJob s outcome tod)
    ⟨L, [], [], 0, 0⟩
  { documents_scanned := docs.length
    notifications_sent := final.sent
    deferred := final.deferred
    notifications := final.notifications
    logs := final.logs
    ledger := final.ledger }

/-- The invocation context of one run in a multi-run schedule. -/
structure RunCtx where
  outcome : DeliveryStatus
  today : Int
  tod : Nat
deriving Repr

/-- A schedule of `run_check` invocations over a fixed document set, threading
the ledger; returns all audit log entries produced and the final ledger. -/
def runMany (s : Settings) (cands : List Candidate) (docs : List Document) :
    List RunCtx → Ledger → List LogEntry × Ledger
  | [], L => ([], L)
  | c :: cs, L =>
    let r := runCheck s cands c.outcome c.today c.tod docs L
    let rest := runMany s cands docs cs r.ledger
    (r.logs ++ rest.1, rest.2)

/-- Number of audit log entries for a given ledger key. -/
def countKey (logs : List LogEntry) (k : Key) : Nat :=
  (logs.filter (fun e => e.key = k)).length

/-- The audit-relevant content of a log entry without the delivery status. -/
def stripStatus (e : LogEntry) : Key × List Nat := (e.key, e.recipients)

/-- A ledger key that can produce no further delivery during a run at time of
day `tod`: it is either already sent, or pending while the run is inside the
quiet window. -/
def keyDone (s : Settings) (tod : Nat) (L : Ledger) (k : Key) : Prop :=
  ledgerFind L k = some .sent ∨
    (ledgerFind L k = some .pending ∧ insideQuietWindow s tod = true)

/-- Modelled from the spec: `ComplianceAggregator.aggregate` over a
candidate's non-orphan documents and the configured required document types.
Precedence: any required type with zero documents wins; then any document
pending human verification; `FullyCompliant` only when additionally every
document's time status is OK.  (A non-pending, non-missing candidate with an
Expired/Critical/ExpiringSoon document is reported as `PendingDocuments`:
the spec flags Expired as disqualifying `FullyCompliant` but leaves the
reported bucket open.) -/
def aggregate (softThreshold : Int) (today : Int) (docs : List Document)
    (required : List String) : AggregateStatus :=
  if required.any (fun ty => docs.all (fun d => d.document_type != ty)) then
    .MissingRequiredDocuments
  else if docs.any (fun d => d.verification_state = .Pending) then
    .PendingDocuments
  else if docs.any (fun d => evaluate softThreshold d today != .OK) then
    .PendingDocuments
  else
    .FullyCompliant

/-! ### Basic lemmas about the helper structures -/

theorem severity_le_three (ts : TimeStatus) : severity ts ≤ 3 := by
  cases ts <;> simp [severity]

/-- C1: for every document and every `today`, the derived time status follows
`days_remaining = expiry_date - today`: negative ⇒ Expired, `0..7` ⇒
Critical, `8..30` (the default soft threshold) ⇒ ExpiringSoon, above ⇒ OK;
a document with no expiry date always evaluates to OK. -/
theorem evaluate_time_status_spec (doc : Document) (today : Int) :
    (doc.expiry_date = none → evaluate 30 doc today = .OK) ∧
    (∀ e, doc.expiry_date = some e →
      (evaluate 30 doc today = .Expired ↔ e - today < 0) ∧
      (evaluate 30 doc today = .Critical ↔ 0 ≤ e - today ∧ e - today ≤ 7) ∧
      (evaluate 30 doc today = .ExpiringSoon ↔ 7 < e - today ∧ e - today ≤ 30) ∧
      (evaluate 30 doc today = .OK ↔ 30 < e - today)) := by
  constructor
  · intro h
    simp [evaluate, h]
  · intro e h
    simp only [evaluate, h]
    unfold statusOfDays
    refine ⟨?_, ?_, ?_, ?_⟩ <;> split_ifs <;> simp <;> omega

theorem evaluate_time_status_spec_witness :
    evaluate 30 ⟨1, 1, "Nursing License", none, some 105, .Verified⟩ 100 =
      TimeStatus.Critical :=
  (((evaluate_time_status_spec
      ⟨1, 1, "Nursing License", none, some 105, .Verified⟩ 100).2 105
      rfl).2.1).mpr (by decide)

/-- C8: the status evaluation is total over the four statuses, and monotone:
decreasing `days_remaining` never moves the status backward toward OK. -/
theorem status_total_and_monotone (soft : Int) :
    (∀ d : Int, statusOfDays soft d = .OK ∨ statusOfDays soft d = .ExpiringSoon ∨
      statusOfDays soft d = .Critical ∨ statusOfDays soft d = .Expired) ∧
    (∀ d d' : Int, d' ≤ d →
      severity (statusOfDays soft d) ≤ severity (statusOfDays soft d')) := by
  constructor
  · intro d
    unfold statusOfDays
    split_ifs <;> simp
  · intro d d' h
    unfold statusOfDays
    split_ifs <;> simp [severity] <;> omega

theorem status_total_and_monotone_witness :
    severity (statusOfDays 30 10) ≤ severity (statusOfDays 30 5) :=
  (status_total_and_monotone 30).2 10 5 (by decide)

/-- C9: status evaluation is a deterministic function of the expiry date and
the injected `today` only: two documents agreeing on `expiry_date` evaluate
identically at the same `today`, whatever their other fields. -/
theorem evaluate_deterministic (soft today : Int) (d1 d2 : Document)
    (h : d1.expiry_date = d2.expiry_date) :
    evaluate soft d1 today = evaluate soft d2 today ∧
    getDaysUntilExpiry d1.expiry_date today =
      getDaysUntilExpiry d2.expiry_date today := by
  constructor
  · unfold evaluate
    rw [h]
  · rw [h]

theorem evaluate_deterministic_witness :
    evaluate 30 ⟨1, 1, "Resume", none, some 200, .Pending⟩ 100 =
      evaluate 30 ⟨2, 9, "Government ID", some 0, some 200, .Verified⟩ 100 :=
  (evaluate_deterministic 30 100
    ⟨1, 1, "Resume", none, some 200, .Pending⟩
    ⟨2, 9, "Government ID", some 0, some 200, .Verified⟩ rfl).1

/-- C5: the resolved recipient set is deduplicated by identity: a user
eligible both as the assigned owner and as a compliance-team member is in the
resolved list exactly once, and the dispatcher's per-recipient fan-out hence
creates exactly one in-app Notification for them for a given alert. -/
theorem resolve_dedup (s : Settings) (c : Candidate) (u : Nat) (k : Key)
    (hflag : s.expiring_notify_recruiter = true)
    (hown : c.owner = some u)
    (hcflag : s.expiring_notify_compliance = true)
    (hmem : u ∈ s.compliance_team) :
    (resolve s c).Nodup ∧ (resolve s c).count u = 1 ∧
    ((resolve s c).map (fun v => Notification.mk v k)).count ⟨u, k⟩ = 1 := by
  have hnd : (resolve s c).Nodup := by
    unfold resolve
    exact List.nodup_dedup _
  have humem : u ∈ resolve s c := by
    simp [resolve, hflag, hcflag, hown, List.mem_dedup]
  have hcount : (resolve s c).count u = 1 := List.count_eq_one_of_mem hnd humem
  refine ⟨hnd, hcount, ?_⟩
  have hinj : Function.Injective (fun v => Notification.mk v k) := by
    intro a b hab
    simpa using hab
  rw [List.count_map_of_injective _ _ hinj]
  exact hcount

theorem resolve_dedup_witness :
    (resolve
        ⟨true, true, true, [30, 7], false, 0, 0, true, true, false, [], [4, 5], [9]⟩
        ⟨1, some 4, none⟩).count 4 = 1 :=
  (resolve_dedup
    ⟨true, true, true, [30, 7], false, 0, 0, true, true, false, [], [4, 5], [9]⟩
    ⟨1, some 4, none⟩ 4 (2, 30) rfl rfl rfl (by decide)).2.1

/-- C7: the aggregate compliance status follows the fixed precedence: a
required type with zero documents forces `MissingRequiredDocuments`
regardless of everything else; otherwise a pending document forces
`PendingDocuments`; and `FullyCompliant` entails that every document's time
status is OK and every required type has a Verified document. -/
theorem aggregate_precedence (soft today : Int) (docs : List Document)
    (required : List String) :
    ((∃ ty ∈ required, ∀ d ∈ docs, d.document_type ≠ ty) →
      aggregate soft today docs required = .MissingRequiredDocuments) ∧
    ((∀ ty ∈ required, ∃ d ∈ docs, d.document_type = ty) →
      (∃ d ∈ docs, d.verification_state = .Pending) →
      aggregate soft today docs required = .PendingDocuments) ∧
    (aggregate soft today docs required = .FullyCompliant →
      (∀ d ∈ docs, evaluate soft d today = .OK) ∧
      (∀ ty ∈ required, ∃ d ∈ docs,
        d.document_type = ty ∧ d.verification_state = .Verified)) := by
  refine ⟨?_, ?_, ?_⟩
  · intro hmiss
    unfold aggregate
    rw [if_pos]
    simp only [List.any_eq_true, List.all_eq_true, bne_iff_ne]
    obtain ⟨ty, hty, hall⟩ := hmiss
    exact ⟨ty, hty, hall⟩
  · intro hpresent hpend
    unfold aggregate
    rw [if_neg, if_pos]
    · simp only [List.any_eq_true, decide_eq_true_eq]
      obtain ⟨d, hd, hdp⟩ := hpend
      exact ⟨d, hd, hdp⟩
    · simp only [List.any_eq_true, List.all_eq_true, bne_iff_ne, not_exists, not_and,
        not_forall]
      intro ty hty
      obtain ⟨d, hd, hdt⟩ := hpresent ty hty
      exact ⟨d, hd, by simp [hdt]⟩
  · intro hfull
    unfold aggregate at hfull
    split_ifs at hfull with h1 h2 h3
    simp only [List.any_eq_true, List.all_eq_true, bne_iff_ne, decide_eq_true_eq,
      not_exists, not_and, not_forall] at h1 h2 h3
    constructor
    · intro d hd
      exact not_not.mp (by simpa using h3 d hd)
    · intro ty hty
      obtain ⟨d, hd, hdt⟩ := h1 ty hty
      refine ⟨d, hd, not_not.mp hdt, ?_⟩
      have hnp : ¬d.verification_state = .Pending := by simpa using h2 d hd
      cases hv : d.verification_state
      · exact absurd hv hnp
      · rfl

theorem aggregate_precedence_witness :
    aggregate 30 100
      [⟨1, 1, "Nursing License", none, some 200, .Verified⟩]
      ["Nursing License", "Criminal Record Check"] =
      AggregateStatus.MissingRequiredDocuments :=
  (aggregate_precedence 30 100
      [⟨1, 1, "Nursing License", none, some 200, .Verified⟩]
      ["Nursing License", "Criminal Record Check"]).1
    ⟨"Criminal Record Check", by decide, by decide⟩

/-- C10: toggling preserves the invariant that the threshold list is
duplicate-free and strictly descending, and toggling the same value twice in
a row restores the original membership of the threshold set. -/
theorem toggleThreshold_sorted_invariant (current : List Int) (t : Int) :
    (current.Pairwise (fun a b => b < a) →
      (toggleThreshold current t).Pairwise (fun a b => b < a)) ∧
    (∀ x, x ∈ toggleThreshold (toggleThreshold current t) t ↔ x ∈ current) := by
  haveI hTot : IsTotal Int (fun a b : Int => b ≤ a) := ⟨fun a b => le_total b a⟩
  haveI hTrans : IsTrans Int (fun a b : Int => b ≤ a) :=
    ⟨fun _ _ _ h1 h2 => le_trans h2 h1⟩
  constructor
  · intro hp
    unfold toggleThreshold
    split_ifs with hmem
    · exact hp.filter _
    · have hnd : (current ++ [t]).Nodup := by
        rw [List.nodup_append]
        refine ⟨hp.imp (fun h => ne_of_gt h), List.nodup_singleton t, ?_⟩
        intro x hx hxt
        rw [List.mem_singleton] at hxt
        subst hxt
        exact hmem hx
      have hsorted :=
        List.sorted_insertionSort (fun a b : Int => b ≤ a) (current ++ [t])
      have hperm :=
        List.perm_insertionSort (fun a b : Int => b ≤ a) (current ++ [t])
      have hnd2 :
          (List.insertionSort (fun a b : Int => b ≤ a) (current ++ [t])).Nodup :=
        hperm.nodup_iff.mpr hnd
      exact (List.Pairwise.and hsorted hnd2).imp
        (fun h => lt_of_le_of_ne h.1 (Ne.symm h.2))
  · intro x
    by_cases hc : t ∈ current
    · have e1 : toggleThreshold current t = current.filter (fun a => a != t) := by
        unfold toggleThreshold
        rw [if_pos hc]
      have htf : t ∉ current.filter (fun a => a != t) := by
        simp [List.mem_filter]
      have e2 : toggleThreshold (current.filter (fun a => a != t)) t =
          List.insertionSort (fun a b => b ≤ a)
            (current.filter (fun a => a != t) ++ [t]) := by
        unfold toggleThreshold
        rw [if_neg htf]
      rw [e1, e2]
      have hperm := List.perm_insertionSort (fun a b : Int => b ≤ a)
        (current.filter (fun a => a != t) ++ [t])
      rw [hperm.mem_iff]
      simp only [List.mem_append, List.mem_filter, List.mem_singleton, bne_iff_ne,
        decide_eq_true_eq]
      by_cases hx : x = t <;> simp [hx, hc]
    · have e1 : toggleThreshold current t =
          List.insertionSort (fun a b => b ≤ a) (current ++ [t]) := by
        unfold toggleThreshold
        rw [if_neg hc]
      have hperm :=
        List.perm_insertionSort (fun a b : Int => b ≤ a) (current ++ [t])
      have htmem : t ∈ List.insertionSort (fun a b : Int => b ≤ a) (current ++ [t]) := by
        rw [hperm.mem_iff]
        simp
      have e2 : toggleThreshold
            (List.insertionSort (fun a b : Int => b ≤ a) (current ++ [t])) t =
          (List.insertionSort (fun a b : Int => b ≤ a) (current ++ [t])).filter
            (fun a => a != t) := by
        unfold toggleThreshold
        rw [if_pos htmem]
      rw [e1, e2]
      simp only [List.mem_filter, hperm.mem_iff, List.mem_append, List.mem_singleton,
        bne_iff_ne, decide_eq_true_eq]
      by_cases hx : x = t <;> simp [hx, hc]

theorem toggleThreshold_sorted_invariant_witness :
    (toggleThreshold [60, 30, 7] 14).Pairwise (fun a b => b < a) ∧
    ∀ x, x ∈ toggleThreshold (toggleThreshold [60, 30, 7] 14) 14 ↔
      x ∈ ([60, 30, 7] : List Int) :=
  ⟨(toggleThreshold_sorted_invariant [60, 30, 7] 14).1 (by decide),
    (toggleThreshold_sorted_invariant [60, 30, 7] 14).2⟩

/-! ### Alert-ledger lemmas -/

theorem ledgerFind_ledgerSet_self (L : Ledger) (k : Key) (st : LedgerStatus) :
    ledgerFind (ledgerSet L k st) k = some st := by
  induction L with
  | nil => simp [ledgerSet, ledgerFind]
  | cons e L ih =>
    by_cases h : e.1 = k
    · simp [ledgerSet, ledgerFind, h]
    · simp [ledgerSet, ledgerFind, h, ih]

theorem ledgerFind_ledgerSet_ne (L : Ledger) (k k' : Key) (st : LedgerStatus)
    (h : k' ≠ k) : ledgerFind (ledgerSet L k st) k' = ledgerFind L k' := by
  induction L with
  | nil => simp [ledgerSet, ledgerFind, Ne.symm h]
  | cons e L ih =>
    by_cases he : e.1 = k
    · simp [ledgerSet, ledgerFind, he, Ne.symm h]
    · by_cases he' : e.1 = k'
      · simp [ledgerSet, ledgerFind, he, he', h]
      · simp [ledgerSet, ledgerFind, he, he', ih]

theorem mem_keys_ledgerSet (L : Ledger) (k : Key) (st : LedgerStatus) (a : Key) :
    a ∈ (ledgerSet L k st).map Prod.fst ↔ a ∈ L.map Prod.fst ∨ a = k := by
  induction L with
  | nil => simp [ledgerSet]
  | cons e L ih =>
    by_cases he : e.1 = k
    · simp only [ledgerSet, he, if_pos]
      simp [he]
      tauto
    · simp only [ledgerSet, he, if_neg, not_false_iff]
      simp [ih]
      tauto

theorem nodup_keys_ledgerSet (L : Ledger) (k : Key) (st : LedgerStatus)
    (h : (L.map Prod.fst).Nodup) : ((ledgerSet L k st).map Prod.fst).Nodup := by
  induction L with
  | nil => simp [ledgerSet]
  | cons e L ih =>
    simp only [List.map_cons, List.nodup_cons] at h
    by_cases he : e.1 = k
    · simp only [ledgerSet, he, if_pos]
      simp only [List.map_cons, List.nodup_cons]
      exact ⟨he ▸ h.1, h.2⟩
    · simp only [ledgerSet, he, if_neg, not_false_iff]
      simp only [List.map_cons, List.nodup_cons]
      refine ⟨?_, ih h.2⟩
      intro hmem
      rcases (mem_keys_ledgerSet L k st e.1).mp hmem with h1 | h1
      · exact h.1 h1
      · exact he h1

/-! ### One processing step: the dedup/quiet-hours decision -/

theorem keyDone_processJob_self (s : Settings) (o : DeliveryStatus) (tod : Nat)
    (st : EngineState) (job : Job) :
    keyDone s tod (processJob s o tod st job).ledger (jobKey job) := by
  unfold keyDone
  cases hf : ledgerFind st.ledger (jobKey job) with
  | none =>
    simp only [processJob, hf]
    by_cases hq : insideQuietWindow s tod = true
    · rw [if_pos hq]
      right
      exact ⟨ledgerFind_ledgerSet_self _ _ _, hq⟩
    · rw [if_neg hq]
      left
      exact ledgerFind_ledgerSet_self _ _ _
  | some ls =>
    cases ls with
    | sent =>
      simp only [processJob, hf]
      left
      trivial
    | pending =>
      simp only [processJob, hf]
      by_cases hq : insideQuietWindow s tod = true
      · rw [if_pos hq]
        right
        exact ⟨hf, hq⟩
      · rw [if_neg hq]
        left
        exact ledgerFind_ledgerSet_self _ _ _

theorem keyDone_processJob_mono (s : Settings) (o : DeliveryStatus) (tod : Nat)
    (st : EngineState) (job : Job) (k : Key)
    (h : keyDone s tod st.ledger k) :
    keyDone s tod (processJob s o tod st job).ledger k := by
  by_cases hk : jobKey job = k
  · rw [← hk]
    exact keyDone_processJob_self s o tod st job
  · have hne : k ≠ jobKey job := fun hc => hk hc.symm
    unfold keyDone at h ⊢
    cases hf : ledgerFind st.ledger (jobKey job) with
    | none =>
      simp only [processJob, hf]
      by_cases hq : insideQuietWindow s tod = true
      · rw [if_pos hq]
        simpa [ledgerFind_ledgerSet_ne _ _ _ _ hne] using h
      · rw [if_neg hq]
        simpa [deliver, ledgerFind_ledgerSet_ne _ _ _ _ hne] using h
    | some ls =>
      cases ls with
      | sent => simpa [processJob, hf] using h
      | pending =>
        simp only [processJob, hf]
        by_cases hq : insideQuietWindow s tod = true
        · rw [if_pos hq]
          simpa using h
        · rw [if_neg hq]
          simpa [deliver, ledgerFind_ledgerSet_ne _ _ _ _ hne] using h

theorem keyDone_foldl (s : Settings) (o : DeliveryStatus) (tod : Nat)
    (jobs : List Job) (st : EngineState) (k : Key)
    (h : keyDone s tod st.ledger k) :
    keyDone s tod (List.foldl (processJob s o tod) st jobs).ledger k := by
  induction jobs generalizing st with
  | nil => exact h
  | cons j js ih =>
    rw [List.foldl_cons]
    exact ih _ (keyDone_processJob_mono s o tod st j k h)

theorem keyDone_foldl_mem (s : Settings) (o : DeliveryStatus) (tod : Nat)
    (jobs : List Job) (st : EngineState) :
    ∀ job ∈ jobs,
      keyDone s tod (List.foldl (processJob s o tod) st jobs).ledger (jobKey job) := by
  induction jobs generalizing st with
  | nil => simp
  | cons j js ih =>
    intro job hmem
    rw [List.foldl_cons]
    rcases List.mem_cons.mp hmem with rfl | hmem
    · exact keyDone_foldl s o tod js _ _ (keyDone_processJob_self s o tod st job)
    · exact ih _ job hmem

theorem processJob_done (s : Settings) (o : DeliveryStatus) (tod : Nat)
    (st : EngineState) (job : Job)
    (h : keyDone s tod st.ledger (jobKey job)) :
    (processJob s o tod st job).ledger = st.ledger ∧
    (processJob s o tod st job).sent = st.sent ∧
    (processJob s o tod st job).notifications = st.notifications ∧
    (processJob s o tod st job).logs = st.logs := by
  rcases h with hs | ⟨hp, hq⟩
  · simp [processJob, hs]
  · simp [processJob, hp, hq]

theorem foldl_done_sent (s : Settings) (o : DeliveryStatus) (tod : Nat)
    (jobs : List Job) (st : EngineState)
    (h : ∀ job ∈ jobs, keyDone s tod st.ledger (jobKey job)) :
    (List.foldl (processJob s o tod) st jobs).sent = st.sent := by
  induction jobs generalizing st with
  | nil => rfl
  | cons j js ih =>
    rw [List.foldl_cons]
    have hd := processJob_done s o tod st j (h j (by simp))
    rw [ih _ ?_, hd.2.1]
    intro job hmem
    rw [hd.1]
    exact h job (List.mem_cons_of_mem _ hmem)

/-- C2: running `run_check` twice in succession with no change to documents,
settings or ledger state between the runs sends zero new notifications on the
second run, whatever the outcome of the email channel in either run. -/
theorem runCheck_idempotent (s : Settings) (cands : List Candidate)
    (o1 o2 : DeliveryStatus) (today : Int) (tod : Nat) (docs : List Document)
    (L : Ledger) :
    (runCheck s cands o2 today tod docs
      (runCheck s cands o1 today tod docs L).ledger).notifications_sent = 0 := by
  simp only [runCheck]
  apply foldl_done_sent
  intro job hmem
  exact keyDone_foldl_mem s o1 tod _ ⟨L, [], [], 0, 0⟩ job hmem

/-! ### Counting audit entries per ledger key -/

theorem countKey_append (l1 l2 : List LogEntry) (k : Key) :
    countKey (l1 ++ l2) k = countKey l1 k + countKey l2 k := by
  simp [countKey, List.filter_append]

theorem countKey_snoc_self (l : List LogEntry) (e : LogEntry) (k : Key)
    (h : e.key = k) : countKey (l ++ [e]) k = countKey l k + 1 := by
  rw [countKey_append]
  simp [countKey, h]

theorem countKey_snoc_ne (l : List LogEntry) (e : LogEntry) (k : Key)
    (h : e.key ≠ k) : countKey (l ++ [e]) k = countKey l k := by
  rw [countKey_append]
  simp [countKey, h]

/-- Effect of one processing step on a fixed key `k`: either nothing about
`k` changes, or `k` is newly ledgered as pending without a log entry, or `k`
is dispatched: marked sent with exactly one new audit entry. -/
theorem processJob_logCases (s : Settings) (o : DeliveryStatus) (tod : Nat)
    (st : EngineState) (job : Job) (k : Key) :
    (ledgerFind (processJob s o tod st job).ledger k = ledgerFind st.ledger k ∧
      countKey (processJob s o tod st job).logs k = countKey st.logs k) ∨
    (ledgerFind st.ledger k ≠ some .sent ∧
      ledgerFind (processJob s o tod st job).ledger k = some .pending ∧
      countKey (processJob s o tod st job).logs k = countKey st.logs k) ∨
    (ledgerFind st.ledger k ≠ some .sent ∧
      ledgerFind (processJob s o tod st job).ledger k = some .sent ∧
      countKey (processJob s o tod st job).logs k = countKey st.logs k + 1) := by
  by_cases hk : jobKey job = k
  · subst hk
    cases hf : ledgerFind st.ledger (jobKey job) with
    | none =>
      simp only [processJob, hf]
      split_ifs with hq
      · right; left
        refine ⟨by simp [hf], ?_, rfl⟩
        exact ledgerFind_ledgerSet_self _ _ _
      · right; right
        refine ⟨by simp [hf], ?_, ?_⟩
        · exact ledgerFind_ledgerSet_self _ _ _
        · exact countKey_snoc_self _ _ _ rfl
    | some ls =>
      cases ls with
      | sent =>
        left
        constructor <;> simp [processJob, hf]
      | pending =>
        simp only [processJob, hf]
        split_ifs with hq
        · left
          exact ⟨hf, rfl⟩
        · right; right
          refine ⟨by simp [hf], ?_, ?_⟩
          · exact ledgerFind_ledgerSet_self _ _ _
          · exact countKey_snoc_self _ _ _ rfl
  · left
    have hne : k ≠ jobKey job := fun hc => hk hc.symm
    cases hf : ledgerFind st.ledger (jobKey job) with
    | none =>
      simp only [processJob, hf]
      split_ifs with hq
      · exact ⟨ledgerFind_ledgerSet_ne _ _ _ _ hne, rfl⟩
      · exact ⟨ledgerFind_ledgerSet_ne _ _ _ _ hne,
          countKey_snoc_ne _ _ _ hne.symm⟩
    | some ls =>
      cases ls with
      | sent => exact ⟨by simp [processJob, hf], by simp [processJob, hf]⟩
      | pending =>
        simp only [processJob, hf]
        split_ifs with hq
        · exact ⟨rfl, rfl⟩
        · exact ⟨ledgerFind_ledgerSet_ne _ _ _ _ hne,
            countKey_snoc_ne _ _ _ hne.symm⟩

/-- Behaviour of a whole pass with respect to one key: a key already sent is
frozen; otherwise at most one audit entry is added; the audit count never
decreases; a strictly increased count means the key ended up sent; and a key
that became sent during the pass produced an audit entry. -/
theorem foldl_logKey (s : Settings) (o : DeliveryStatus) (tod : Nat)
    (jobs : List Job) (st : EngineState) (k : Key) :
    (ledgerFind st.ledger k = some .sent →
      ledgerFind (List.foldl (processJob s o tod) st jobs).ledger k = some .sent ∧
      countKey (List.foldl (processJob s o tod) st jobs).logs k =
        countKey st.logs k) ∧
    (ledgerFind st.ledger k ≠ some .sent →
      countKey (List.foldl (processJob s o tod) st jobs).logs k ≤
        countKey st.logs k + 1) ∧
    countKey st.logs k ≤
      countKey (List.foldl (processJob s o tod) st jobs).logs k ∧
    (countKey (List.foldl (processJob s o tod) st jobs).logs k >
        countKey st.logs k →
      ledgerFind (List.foldl (processJob s o tod) st jobs).ledger k =
        some .sent) ∧
    (ledgerFind (List.foldl (processJob s o tod) st jobs).ledger k =
        some .sent →
      ledgerFind st.ledger k = some .sent ∨
        countKey (List.foldl (processJob s o tod) st jobs).logs k >
          countKey st.logs k) := by
  induction jobs generalizing st with
  | nil =>
    simp only [List.foldl_nil]
    exact ⟨fun h => ⟨h, trivial⟩, fun _ => by omega, le_refl _,
      fun h => absurd h (lt_irrefl _), fun h => Or.inl h⟩
  | cons j js ih =>
    rw [List.foldl_cons]
    obtain ⟨ih1, ih2, ih3, ih4, ih5⟩ := ih (processJob s o tod st j)
    rcases processJob_logCases s o tod st j k with ⟨hf, hc⟩ | ⟨hns, hf, hc⟩ |
      ⟨hns, hf, hc⟩
    · refine ⟨?_, ?_, ?_, ?_, ?_⟩
      · intro hs
        obtain ⟨a, b⟩ := ih1 (hf.trans hs)
        exact ⟨a, by omega⟩
      · intro hns
        have : ledgerFind (processJob s o tod st j).ledger k ≠ some .sent := by
          rw [hf]; exact hns
        have := ih2 this
        omega
      · have := ih3
        omega
      · intro hgt
        exact ih4 (by omega)
      · intro hs
        rcases ih5 hs with h1 | h1
        · exact Or.inl (hf ▸ h1)
        · exact Or.inr (by omega)
    · refine ⟨?_, ?_, ?_, ?_, ?_⟩
      · intro hs
        exact absurd hs hns
      · intro _
        have : ledgerFind (processJob s o tod st j).ledger k ≠ some .sent := by
          rw [hf]; intro hc'; cases hc'
        have := ih2 this
        omega
      · have := ih3
        omega
      · intro hgt
        exact ih4 (by omega)
      · intro hs
        rcases ih5 hs with h1 | h1
        · rw [hf] at h1
          cases h1
        · exact Or.inr (by omega)
    · refine ⟨?_, ?_, ?_, ?_, ?_⟩
      · intro hs
        exact absurd hs hns
      · intro _
        obtain ⟨a, b⟩ := ih1 hf
        omega
      · have := ih3
        omega
      · intro _
        exact (ih1 hf).1
      · intro _
        have := ih3
        exact Or.inr (by omega)

/-- Across any schedule of runs over a fixed document set, a given ledger key
produces at most one audit entry, and a key that is already sent stays sent
and produces none. -/
theorem runMany_logKey (s : Settings) (cands : List Candidate)
    (docs : List Document) (ctxs : List RunCtx) (L : Ledger) (k : Key) :
    countKey (runMany s cands docs ctxs L).1 k ≤ 1 ∧
    (ledgerFind L k = some .sent →
      countKey (runMany s cands docs ctxs L).1 k = 0 ∧
      ledgerFind (runMany s cands docs ctxs L).2 k = some .sent) := by
  induction ctxs generalizing L with
  | nil => simp [runMany, countKey]
  | cons c cs ih =>
    simp only [runMany, runCheck]
    rw [countKey_append]
    obtain ⟨K1, K2, K3, K4, K5⟩ :=
      foldl_logKey s c.outcome c.tod
        (if s.enabled && s.expiring_credential_enabled then
          docs.flatMap (jobsFor s cands c.today) else [])
        ⟨L, [], [], 0, 0⟩ k
    obtain ⟨ih1, ih2⟩ := ih (List.foldl (processJob s c.outcome c.tod)
      ⟨L, [], [], 0, 0⟩
      (if s.enabled && s.expiring_credential_enabled then
        docs.flatMap (jobsFor s cands c.today) else [])).ledger
    have h0 : countKey (⟨L, [], [], 0, 0⟩ : EngineState).logs k = 0 := rfl
    constructor
    · by_cases hs : ledgerFind L k = some .sent
      · obtain ⟨hfs, hc0⟩ := K1 hs
        obtain ⟨hr0, _⟩ := ih2 hfs
        omega
      · have h2 := K2 hs
        by_cases hgt : 0 < countKey (List.foldl (processJob s c.outcome c.tod)
            ⟨L, [], [], 0, 0⟩
            (if s.enabled && s.expiring_credential_enabled then
              docs.flatMap (jobsFor s cands c.today) else [])).logs k
        · have hfs := K4 (by omega)
          obtain ⟨hr0, _⟩ := ih2 hfs
          omega
        · omega
    · intro hs
      obtain ⟨hfs, hc0⟩ := K1 hs
      obtain ⟨hr0, hrs⟩ := ih2 hfs
      exact ⟨by omega, hrs⟩

theorem processJob_keys_nodup (s : Settings) (o : DeliveryStatus) (tod : Nat)
    (st : EngineState) (job : Job)
    (h : (st.ledger.map Prod.fst).Nodup) :
    ((processJob s o tod st job).ledger.map Prod.fst).Nodup := by
  cases hf : ledgerFind st.ledger (jobKey job) with
  | none =>
    simp only [processJob, hf]
    split_ifs with hq
    · exact nodup_keys_ledgerSet _ _ _ h
    · simp only [deliver]
      exact nodup_keys_ledgerSet _ _ _ h
  | some ls =>
    cases ls with
    | sent => simpa [processJob, hf] using h
    | pending =>
      simp only [processJob, hf]
      split_ifs with hq
      · simpa using h
      · simp only [deliver]
        exact nodup_keys_ledgerSet _ _ _ h

theorem foldl_keys_nodup (s : Settings) (o : DeliveryStatus) (tod : Nat)
    (jobs : List Job) (st : EngineState)
    (h : (st.ledger.map Prod.fst).Nodup) :
    ((List.foldl (processJob s o tod) st jobs).ledger.map Prod.fst).Nodup := by
  induction jobs generalizing st with
  | nil => exact h
  | cons j js ih =>
    rw [List.foldl_cons]
    exact ih _ (processJob_keys_nodup s o tod st j h)

theorem runMany_keys_nodup (s : Settings) (cands : List Candidate)
    (docs : List Document) (ctxs : List RunCtx) (L : Ledger)
    (h : (L.map Prod.fst).Nodup) :
    (((runMany s cands docs ctxs L).2).map Prod.fst).Nodup := by
  induction ctxs generalizing L with
  | nil => exact h
  | cons c cs ih =>
    simp only [runMany, runCheck]
    exact ih _ (foldl_keys_nodup s c.outcome c.tod _ ⟨L, [], [], 0, 0⟩ h)

/-- C3: across any number of check runs with the document set (and hence
every expiry date) unchanged, each (document_id, threshold_value) key fires
at most once: at most one audit entry for the key is ever produced; ledger
keys are never duplicated, only updated; and recording one threshold's entry
leaves every other threshold's key of the same document untouched. -/
theorem alert_fires_at_most_once (s : Settings) (cands : List Candidate)
    (docs : List Document) (ctxs : List RunCtx) (L : Ledger) (k : Key) :
    countKey (runMany s cands docs ctxs L).1 k ≤ 1 ∧
    ((L.map Prod.fst).Nodup →
      (((runMany s cands docs ctxs L).2).map Prod.fst).Nodup) ∧
    (∀ (L' : Ledger) (d : Nat) (t t' : Int) (v : LedgerStatus), t ≠ t' →
      ledgerFind (ledgerSet L' (d, t) v) (d, t') = ledgerFind L' (d, t')) :=
  ⟨(runMany_logKey s cands docs ctxs L k).1,
    runMany_keys_nodup s cands docs ctxs L,
    fun L' d t t' v ht =>
      ledgerFind_ledgerSet_ne L' (d, t) (d, t') v (by simp [Ne.symm ht])⟩

theorem alert_fires_at_most_once_witness :
    countKey
      (runMany
        ⟨true, true, true, [30, 14, 7], true, 1320, 420, true, true, false,
          [], [4, 5], [9]⟩
        [⟨1, some 4, none⟩]
        [⟨10, 1, "Nursing License", none, some 105, .Verified⟩]
        [⟨.logged, 100, 480⟩, ⟨.logged, 100, 600⟩, ⟨.logged, 101, 480⟩]
        []).1 (10, 7) ≤ 1 ∧
    (((runMany
        ⟨true, true, true, [30, 14, 7], true, 1320, 420, true, true, false,
          [], [4, 5], [9]⟩
        [⟨1, some 4, none⟩]
        [⟨10, 1, "Nursing License", none, some 105, .Verified⟩]
        [⟨.logged, 100, 480⟩, ⟨.logged, 100, 600⟩, ⟨.logged, 101, 480⟩]
        []).2).map Prod.fst).Nodup :=
  ⟨(alert_fires_at_most_once
      ⟨true, true, true, [30, 14, 7], true, 1320, 420, true, true, false,
        [], [4, 5], [9]⟩
      [⟨1, some 4, none⟩]
      [⟨10, 1, "Nursing License", none, some 105, .Verified⟩]
      [⟨.logged, 100, 480⟩, ⟨.logged, 100, 600⟩, ⟨.logged, 101, 480⟩]
      [] (10, 7)).1,
    (alert_fires_at_most_once
      ⟨true, true, true, [30, 14, 7], true, 1320, 420, true, true, false,
        [], [4, 5], [9]⟩
      [⟨1, some 4, none⟩]
      [⟨10, 1, "Nursing License", none, some 105, .Verified⟩]
      [⟨.logged, 100, 480⟩, ⟨.logged, 100, 600⟩, ⟨.logged, 101, 480⟩]
      [] (10, 7)).2.1 (by decide)⟩

/-! ### Quiet-hours suppression lemmas -/

theorem processJob_quiet (s : Settings) (o : DeliveryStatus) (tod : Nat)
    (st : EngineState) (job : Job) (hq : insideQuietWindow s tod = true) :
    (processJob s o tod st job).sent = st.sent ∧
    (processJob s o tod st job).logs = st.logs ∧
    (processJob s o tod st job).notifications = st.notifications := by
  cases hf : ledgerFind st.ledger (jobKey job) with
  | none => simp [processJob, hf, hq]
  | some ls => cases ls <;> simp [processJob, hf, hq]

theorem foldl_quiet (s : Settings) (o : DeliveryStatus) (tod : Nat)
    (jobs : List Job) (st : EngineState)
    (hq : insideQuietWindow s tod = true) :
    (List.foldl (processJob s o tod) st jobs).sent = st.sent ∧
    (List.foldl (processJob s o tod) st jobs).logs = st.logs ∧
    (List.foldl (processJob s o tod) st jobs).notifications =
      st.notifications := by
  induction jobs generalizing st with
  | nil => exact ⟨rfl, rfl, rfl⟩
  | cons j js ih =>
    rw [List.foldl_cons]
    obtain ⟨a, b, c⟩ := ih (processJob s o tod st j)
    obtain ⟨a', b', c'⟩ := processJob_quiet s o tod st j hq
    exact ⟨a.trans a', b.trans b', c.trans c'⟩

theorem processJob_quiet_ledger (s : Settings) (o : DeliveryStatus) (tod : Nat)
    (st : EngineState) (job : Job) (k : Key)
    (hq : insideQuietWindow s tod = true) :
    ledgerFind (processJob s o tod st job).ledger k = ledgerFind st.ledger k ∨
    (ledgerFind st.ledger k = none ∧
      ledgerFind (processJob s o tod st job).ledger k = some .pending) := by
  cases hf : ledgerFind st.ledger (jobKey job) with
  | none =>
    simp only [processJob, hf, hq, if_true]
    by_cases hk : jobKey job = k
    · subst hk
      exact Or.inr ⟨hf, ledgerFind_ledgerSet_self _ _ _⟩
    · exact Or.inl
        (ledgerFind_ledgerSet_ne _ _ _ _ (fun hc => hk hc.symm))
  | some ls =>
    cases ls with
    | sent => simp [processJob, hf]
    | pending => simp [processJob, hf, hq]

theorem foldl_quiet_no_sent (s : Settings) (o : DeliveryStatus) (tod : Nat)
    (jobs : List Job) (st : EngineState) (k : Key)
    (hq : insideQuietWindow s tod = true)
    (h : ledgerFind st.ledger k ≠ some .sent) :
    ledgerFind (List.foldl (processJob s o tod) st jobs).ledger k ≠
      some .sent := by
  induction jobs generalizing st with
  | nil => exact h
  | cons j js ih =>
    rw [List.foldl_cons]
    apply ih
    rcases processJob_quiet_ledger s o tod st j k hq with h1 | ⟨_, h1⟩
    · rw [h1]; exact h
    · rw [h1]; intro hc; cases hc

/-! ### Provenance of audit entries -/

theorem foldl_log_provenance (s : Settings) (o : DeliveryStatus) (tod : Nat)
    (jobs : List Job) (st : EngineState) :
    ∀ e ∈ (List.foldl (processJob s o tod) st jobs).logs,
      e ∈ st.logs ∨ ∃ job ∈ jobs, e.key = jobKey job ∧
        e.recipients = resolve s job.2.1 := by
  induction jobs generalizing st with
  | nil =>
    intro e he
    exact Or.inl he
  | cons j js ih =>
    intro e he
    rw [List.foldl_cons] at he
    rcases ih (processJob s o tod st j) e he with hin | ⟨job, hjob, hk, hr⟩
    · have hstep : e ∈ st.logs ∨
          (e.key = jobKey j ∧ e.recipients = resolve s j.2.1) := by
        cases hf : ledgerFind st.ledger (jobKey j) with
        | none =>
          simp only [processJob, hf] at hin
          split_ifs at hin with hq
          · exact Or.inl hin
          · simp only [deliver] at hin
            rcases List.mem_append.mp hin with h1 | h1
            · exact Or.inl h1
            · rcases List.mem_singleton.mp h1 with rfl
              exact Or.inr ⟨rfl, rfl⟩
        | some ls =>
          cases ls with
          | sent =>
            simp only [processJob, hf] at hin
            exact Or.inl hin
          | pending =>
            simp only [processJob, hf] at hin
            split_ifs at hin with hq
            · exact Or.inl hin
            · simp only [deliver] at hin
              rcases List.mem_append.mp hin with h1 | h1
              · exact Or.inl h1
              · rcases List.mem_singleton.mp h1 with rfl
                exact Or.inr ⟨rfl, rfl⟩
      rcases hstep with h1 | ⟨hk, hr⟩
      · exact Or.inl h1
      · exact Or.inr ⟨j, List.mem_cons_self _ _, hk, hr⟩
    · exact Or.inr ⟨job, List.mem_cons_of_mem _ hjob, hk, hr⟩

theorem exists_of_countKey_pos (logs : List LogEntry) (k : Key)
    (h : 0 < countKey logs k) : ∃ e ∈ logs, e.key = k := by
  unfold countKey at h
  obtain ⟨e, he⟩ := List.exists_mem_of_ne_nil _ (List.length_pos.mp h)
  rw [List.mem_filter] at he
  exact ⟨e, he.1, by simpa using he.2⟩

/-- C4: when quiet hours are enabled and a check run happens inside the quiet
window (a time-of-day range that wraps midnight when start > end), a due
alert with a fresh ledger key is computed and ledgered as pending, while that
run delivers no in-app notification and writes no audit entry at all; a
subsequent run outside the window delivers the alert exactly once to the
resolved recipients and marks the key sent — the alert is never lost. -/
theorem quiet_hours_defer_then_deliver
    (s : Settings) (cands : List Candidate) (cand : Candidate) (doc : Document)
    (o1 o2 : DeliveryStatus) (today : Int) (tod1 tod2 : Nat) (L : Ledger)
    (t : Int)
    (hin : insideQuietWindow s tod1 = true)
    (hout : insideQuietWindow s tod2 = false)
    (henabled : (s.enabled && s.expiring_credential_enabled) = true)
    (hcand : findCand cands doc.candidate_id = some cand)
    (ht : t ∈ alertKeys s today doc)
    (hfresh : ledgerFind L (doc.id, t) = none) :
    (runCheck s cands o1 today tod1 [doc] L).notifications_sent = 0 ∧
    (runCheck s cands o1 today tod1 [doc] L).notifications = [] ∧
    (runCheck s cands o1 today tod1 [doc] L).logs = [] ∧
    ledgerFind (runCheck s cands o1 today tod1 [doc] L).ledger (doc.id, t) =
      some .pending ∧
    countKey (runCheck s cands o2 today tod2 [doc]
        (runCheck s cands o1 today tod1 [doc] L).ledger).logs (doc.id, t) = 1 ∧
    ledgerFind (runCheck s cands o2 today tod2 [doc]
        (runCheck s cands o1 today tod1 [doc] L).ledger).ledger (doc.id, t) =
      some .sent ∧
    ∃ e ∈ (runCheck s cands o2 today tod2 [doc]
        (runCheck s cands o1 today tod1 [doc] L).ledger).logs,
      e.key = (doc.id, t) ∧ e.recipients = resolve s cand := by
  have hjobs : [doc].flatMap (jobsFor s cands today) =
      (alertKeys s today doc).map (fun t' => (doc, cand, t')) := by
    simp [jobsFor, hcand]
  simp only [runCheck, henabled, eq_self_iff_true, if_true]
  rw [hjobs]
  have hjob0 : (doc, cand, t) ∈
      (alertKeys s today doc).map (fun t' => (doc, cand, t')) :=
    List.mem_map.mpr ⟨t, ht, rfl⟩
  have hq1 := foldl_quiet s o1 tod1
    ((alertKeys s today doc).map (fun t' => (doc, cand, t')))
    ⟨L, [], [], 0, 0⟩ hin
  have hnosent1 := foldl_quiet_no_sent s o1 tod1
    ((alertKeys s today doc).map (fun t' => (doc, cand, t')))
    ⟨L, [], [], 0, 0⟩ (doc.id, t) hin
    (by rw [hfresh]; intro hc; cases hc)
  have hdone1 := keyDone_foldl_mem s o1 tod1
    ((alertKeys s today doc).map (fun t' => (doc, cand, t')))
    ⟨L, [], [], 0, 0⟩ (doc, cand, t) hjob0
  have hpend : ledgerFind
      (List.foldl (processJob s o1 tod1) ⟨L, [], [], 0, 0⟩
        ((alertKeys s today doc).map (fun t' => (doc, cand, t')))).ledger
      (doc.id, t) = some .pending := by
    rcases hdone1 with hs | ⟨hp, _⟩
    · exact absurd hs hnosent1
    · exact hp
  have hne : ledgerFind
      (List.foldl (processJob s o1 tod1) ⟨L, [], [], 0, 0⟩
        ((alertKeys s today doc).map (fun t' => (doc, cand, t')))).ledger
      (doc.id, t) ≠ some .sent := by
    rw [hpend]
    intro hc
    cases hc
  have hdone2 := keyDone_foldl_mem s o2 tod2
    ((alertKeys s today doc).map (fun t' => (doc, cand, t')))
    ⟨(List.foldl (processJob s o1 tod1) ⟨L, [], [], 0, 0⟩
        ((alertKeys s today doc).map (fun t' => (doc, cand, t')))).ledger,
      [], [], 0, 0⟩ (doc, cand, t) hjob0
  have hsent2 : ledgerFind
      (List.foldl (processJob s o2 tod2)
        ⟨(List.foldl (processJob s o1 tod1) ⟨L, [], [], 0, 0⟩
            ((alertKeys s today doc).map (fun t' => (doc, cand, t')))).ledger,
          [], [], 0, 0⟩
        ((alertKeys s today doc).map (fun t' => (doc, cand, t')))).ledger
      (doc.id, t) = some .sent := by
    rcases hdone2 with hs | ⟨_, hq⟩
    · exact hs
    · rw [hout] at hq
      cases hq
  obtain ⟨K1, K2, K3, K4, K5⟩ := foldl_logKey s o2 tod2
    ((alertKeys s today doc).map (fun t' => (doc, cand, t')))
    ⟨(List.foldl (processJob s o1 tod1) ⟨L, [], [], 0, 0⟩
        ((alertKeys s today doc).map (fun t' => (doc, cand, t')))).ledger,
      [], [], 0, 0⟩ (doc.id, t)
  have hub := K2 hne
  have hlb : 0 < countKey
      (List.foldl (processJob s o2 tod2)
        ⟨(List.foldl (processJob s o1 tod1) ⟨L, [], [], 0, 0⟩
            ((alertKeys s today doc).map (fun t' => (doc, cand, t')))).ledger,
          [], [], 0, 0⟩
        ((alertKeys s today doc).map (fun t' => (doc, cand, t')))).logs
      (doc.id, t) := by
    rcases K5 hsent2 with h1 | h1
    · exact absurd h1 hne
    · omega
  have h0 : countKey
      ((⟨(List.foldl (processJob s o1 tod1) ⟨L, [], [], 0, 0⟩
          ((alertKeys s today doc).map (fun t' => (doc, cand, t')))).ledger,
        [], [], 0, 0⟩ : EngineState)).logs (doc.id, t) = 0 := rfl
  refine ⟨hq1.1, hq1.2.2, hq1.2.1, hpend, by omega, hsent2, ?_⟩
  obtain ⟨e, hemem, hekey⟩ := exists_of_countKey_pos _ (doc.id, t) hlb
  rcases foldl_log_provenance s o2 tod2
      ((alertKeys s today doc).map (fun t' => (doc, cand, t')))
      ⟨(List.foldl (processJob s o1 tod1) ⟨L, [], [], 0, 0⟩
          ((alertKeys s today doc).map (fun t' => (doc, cand, t')))).ledger,
        [], [], 0, 0⟩ e hemem with
    hin' | ⟨job, hjobmem, hk, hr⟩
  · cases hin'
  · obtain ⟨t', _, rfl⟩ := List.mem_map.mp hjobmem
    exact ⟨e, hemem, hekey, by simpa using hr⟩

theorem quiet_hours_defer_then_deliver_witness :
    (runCheck
        ⟨true, true, true, [30, 14, 7], true, 1320, 420, true, true, false,
          [], [4, 5], [9]⟩
        [⟨1, some 4, none⟩] .logged 100 1380
        [⟨10, 1, "Nursing License", none, some 105, .Verified⟩]
        []).notifications_sent = 0 ∧
    ledgerFind
      (runCheck
        ⟨true, true, true, [30, 14, 7], true, 1320, 420, true, true, false,
          [], [4, 5], [9]⟩
        [⟨1, some 4, none⟩] .logged 100 1380
        [⟨10, 1, "Nursing License", none, some 105, .Verified⟩]
        []).ledger (10, 7) = some .pending :=
  ⟨(quiet_hours_defer_then_deliver
      ⟨true, true, true, [30, 14, 7], true, 1320, 420, true, true, false,
        [], [4, 5], [9]⟩
      [⟨1, some 4, none⟩] ⟨1, some 4, none⟩
      ⟨10, 1, "Nursing License", none, some 105, .Verified⟩
      .logged .logged 100 1380 480 [] 7
      (by decide) (by decide) (by decide) (by decide) (by decide) rfl).1,
    (quiet_hours_defer_then_deliver
      ⟨true, true, true, [30, 14, 7], true, 1320, 420, true, true, false,
        [], [4, 5], [9]⟩
      [⟨1, some 4, none⟩] ⟨1, some 4, none⟩
      ⟨10, 1, "Nursing License", none, some 105, .Verified⟩
      .logged .logged 100 1380 480 [] 7
      (by decide) (by decide) (by decide) (by decide) (by decide) rfl).2.2.2.1⟩

/-! ### The audit trail is independent of the email outcome -/

theorem processJob_logs_length (s : Settings) (o : DeliveryStatus) (tod : Nat)
    (st : EngineState) (job : Job) :
    (processJob s o tod st job).logs.length + st.sent =
      (processJob s o tod st job).sent + st.logs.length := by
  cases hf : ledgerFind st.ledger (jobKey job) with
  | none =>
    simp only [processJob, hf]
    split_ifs with hq
    · dsimp only
      omega
    · simp only [deliver]
      simp only [List.length_append, List.length_cons, List.length_nil]
      omega
  | some ls =>
    cases ls with
    | sent =>
      simp only [processJob, hf]
      omega
    | pending =>
      simp only [processJob, hf]
      split_ifs with hq
      · dsimp only
        omega
      · simp only [deliver]
        simp only [List.length_append, List.length_cons, List.length_nil]
        omega

theorem foldl_logs_length (s : Settings) (o : DeliveryStatus) (tod : Nat)
    (jobs : List Job) (st : EngineState) :
    (List.foldl (processJob s o tod) st jobs).logs.length + st.sent =
      (List.foldl (processJob s o tod) st jobs).sent + st.logs.length := by
  induction jobs generalizing st with
  | nil =>
    simp only [List.foldl_nil]
    omega
  | cons j js ih =>
    rw [List.foldl_cons]
    have h1 := processJob_logs_length s o tod st j
    have h2 := ih (processJob s o tod st j)
    omega

theorem processJob_outcome_sim (s : Settings) (tod : Nat)
    (o1 o2 : DeliveryStatus) (st1 st2 : EngineState) (job : Job)
    (hL : st1.ledger = st2.ledger) (hN : st1.notifications = st2.notifications)
    (hS : st1.sent = st2.sent) (hD : st1.deferred = st2.deferred)
    (hG : st1.logs.map stripStatus = st2.logs.map stripStatus) :
    (processJob s o1 tod st1 job).ledger =
      (processJob s o2 tod st2 job).ledger ∧
    (processJob s o1 tod st1 job).notifications =
      (processJob s o2 tod st2 job).notifications ∧
    (processJob s o1 tod st1 job).sent = (processJob s o2 tod st2 job).sent ∧
    (processJob s o1 tod st1 job).deferred =
      (processJob s o2 tod st2 job).deferred ∧
    (processJob s o1 tod st1 job).logs.map stripStatus =
      (processJob s o2 tod st2 job).logs.map stripStatus := by
  cases hf : ledgerFind st1.ledger (jobKey job) with
  | none =>
    have hf2 : ledgerFind st2.ledger (jobKey job) = none := by
      rw [← hL]
      exact hf
    simp only [processJob, hf, hf2]
    split_ifs with hq
    · exact ⟨by simp [hL], by simp [hN], by simp [hS], by simp [hD],
        by simp [hG]⟩
    · simp only [deliver]
      refine ⟨by rw [hL], by rw [hN], by rw [hS], hD, ?_⟩
      simp [hG, stripStatus]
  | some ls =>
    have hf2 : ledgerFind st2.ledger (jobKey job) = some ls := by
      rw [← hL]
      exact hf
    cases ls with
    | sent =>
      simp only [processJob, hf, hf2]
      exact ⟨hL, hN, hS, hD, hG⟩
    | pending =>
      simp only [processJob, hf, hf2]
      split_ifs with hq
      · exact ⟨hL, hN, hS, by simp [hD], hG⟩
      · simp only [deliver]
        refine ⟨by rw [hL], by rw [hN], by rw [hS], hD, ?_⟩
        simp [hG, stripStatus]

theorem foldl_outcome_sim (s : Settings) (tod : Nat)
    (o1 o2 : DeliveryStatus) (jobs : List Job) (st1 st2 : EngineState)
    (hL : st1.ledger = st2.ledger) (hN : st1.notifications = st2.notifications)
    (hS : st1.sent = st2.sent) (hD : st1.deferred = st2.deferred)
    (hG : st1.logs.map stripStatus = st2.logs.map stripStatus) :
    (List.foldl (processJob s o1 tod) st1 jobs).ledger =
      (List.foldl (processJob s o2 tod) st2 jobs).ledger ∧
    (List.foldl (processJob s o1 tod) st1 jobs).notifications =
      (List.foldl (processJob s o2 tod) st2 jobs).notifications ∧
    (List.foldl (processJob s o1 tod) st1 jobs).sent =
      (List.foldl (processJob s o2 tod) st2 jobs).sent ∧
    (List.foldl (processJob s o1 tod) st1 jobs).deferred =
      (List.foldl (processJob s o2 tod) st2 jobs).deferred ∧
    (List.foldl (processJob s o1 tod) st1 jobs).logs.map stripStatus =
      (List.foldl (processJob s o2 tod) st2 jobs).logs.map stripStatus := by
  induction jobs generalizing st1 st2 with
  | nil => exact ⟨hL, hN, hS, hD, hG⟩
  | cons j js ih =>
    rw [List.foldl_cons, List.foldl_cons]
    obtain ⟨a, b, c, d, e⟩ := processJob_outcome_sim s tod o1 o2 st1 st2 j
      hL hN hS hD hG
    exact ih _ _ a b c d e

/-- C6: every dispatched alert writes exactly one audit entry (the number of
`NotificationLog` entries of a run equals its `notifications_sent`), and the
in-app notifications, the audit entries up to their delivery status, the sent
count and the ledger of a run do not depend on the email channel outcome —
a failed provider suppresses neither the in-app notification nor the audit
trail. -/
theorem dispatch_always_logs_once (s : Settings) (cands : List Candidate)
    (o1 o2 : DeliveryStatus) (today : Int) (tod : Nat) (docs : List Document)
    (L : Ledger) :
    (runCheck s cands o1 today tod docs L).logs.length =
      (runCheck s cands o1 today tod docs L).notifications_sent ∧
    (runCheck s cands o1 today tod docs L).notifications =
      (runCheck s cands o2 today tod docs L).notifications ∧
    (runCheck s cands o1 today tod docs L).logs.map stripStatus =
      (runCheck s cands o2 today tod docs L).logs.map stripStatus ∧
    (runCheck s cands o1 today tod docs L).notifications_sent =
      (runCheck s cands o2 today tod docs L).notifications_sent ∧
    (runCheck s cands o1 today tod docs L).ledger =
      (runCheck s cands o2 today tod docs L).ledger := by
  simp only [runCheck]
  obtain ⟨a, b, c, d, e⟩ := foldl_outcome_sim s tod o1 o2
    (if s.enabled && s.expiring_credential_enabled then
      docs.flatMap (jobsFor s cands today) else [])
    ⟨L, [], [], 0, 0⟩ ⟨L, [], [], 0, 0⟩ rfl rfl rfl rfl rfl
  have hlen := foldl_logs_length s o1 tod
    (if s.enabled && s.expiring_credential_enabled then
      docs.flatMap (jobsFor s cands today) else [])
    ⟨L, [], [], 0, 0⟩
  have h0s : ((⟨L, [], [], 0, 0⟩ : EngineState)).sent = 0 := rfl
  have h0l : ((⟨L, [], [], 0, 0⟩ : EngineState)).logs.length = 0 := rfl
  exact ⟨by omega, b, e, c, a⟩

end McCare
